import Mathlib

/-!
Verification of the leakage-detection statistics engine of `dudect-bencher`
(files `src/stats.rs` and `src/ctbench.rs`).

Modelling conventions:

- `f64` values are modelled as exact real numbers extended with the IEEE special
  values `nan`, `+inf` and `-inf` (type `F` below).  Rounding and signed zero are
  not modelled: arithmetic on finite values is exact.  All quantities reaching the
  special-value-producing operations in the source (the divisions inside
  `compute_t` and the final `max_t / sqrt(n)`) are tracked through `F`.
- `u64` runtime samples are modelled as natural numbers, cast to `ℝ` exactly
  (the model ignores the `u64 -> f64` rounding above `2^53`).
- `usize` counters are modelled as `ℕ` (overflow is out of range for this tool).
- Rust panics (failed `assert!`, out-of-bounds indexing, `Option::unwrap` on
  `None`) are modelled by `Option.none` results.
-/

namespace Dudect

/-- Model of an `f64` value: a finite real, or one of the IEEE special values. -/
inductive F where
  | fin : ℝ → F
  | nan : F
  | inf : F
  | ninf : F

namespace F

/-- IEEE-style test for the NaN value. -/
def isNan : F → Bool
  | nan => true
  | _ => false

/-- IEEE-style strict comparison: any comparison involving NaN is false. -/
def flt : F → F → Prop
  | fin a, fin b => a < b
  | fin _, inf => True
  | ninf, fin _ => True
  | ninf, inf => True
  | _, _ => False

/-- IEEE-style equality: NaN is not equal to anything, including itself. -/
def feq : F → F → Prop
  | fin a, fin b => a = b
  | inf, inf => True
  | ninf, ninf => True
  | _, _ => False

/-- Non-strict ordering on non-NaN values (used only to state maximality). -/
def fle (x y : F) : Prop := flt x y ∨ feq x y

/-- IEEE-style addition on the model (exact on finite values). -/
def add : F → F → F
  | nan, _ => nan
  | _, nan => nan
  | fin a, fin b => fin (a + b)
  | fin _, inf => inf
  | fin _, ninf => ninf
  | inf, fin _ => inf
  | ninf, fin _ => ninf
  | inf, inf => inf
  | ninf, ninf => ninf
  | inf, ninf => nan
  | ninf, inf => nan

/-- IEEE-style division of two finite reals: division by zero produces a special
value chosen by the sign of the numerator (signed zero is not modelled). -/
noncomputable def finDiv (a b : ℝ) : F :=
  if b ≠ 0 then fin (a / b)
  else if a = 0 then nan
  else if 0 < a then inf
  else ninf

/-- IEEE-style division on the model. -/
noncomputable def div : F → F → F
  | nan, _ => nan
  | _, nan => nan
  | fin a, fin b => finDiv a b
  | fin _, inf => fin 0
  | fin _, ninf => fin 0
  | inf, fin b => if 0 ≤ b then inf else ninf
  | ninf, fin b => if 0 ≤ b then ninf else inf
  | inf, _ => nan
  | ninf, _ => nan

/-- IEEE-style square root: NaN on negative arguments. -/
noncomputable def fsqrt : F → F
  | nan => nan
  | inf => inf
  | ninf => nan
  | fin a => if a < 0 then nan else fin (Real.sqrt a)

/-- IEEE-style absolute value. -/
def fabs : F → F
  | nan => nan
  | inf => inf
  | ninf => inf
  | fin a => fin |a|

/-- IEEE-style negation. -/
def neg : F → F
  | nan => nan
  | inf => ninf
  | ninf => inf
  | fin a => fin (-a)

end F

open F

/-- Embedding of `struct CtSummary` from `src/stats.rs`: the two t-statistics are
`f64` in the source and may be NaN, the sample size is a `usize`. -/
structure CtSummary where
  max_t : F
  max_tau : F
  sample_size : ℕ

/-- Embedding of `struct CtTest` from `src/stats.rs`: per-window running means,
sums of squared deviations and sample counts, one component per class. -/
structure CtTest where
  means : ℝ × ℝ
  sq_diffs : ℝ × ℝ
  sizes : ℕ × ℕ

/-- Embedding of `CtTest::default()`: all components zero. -/
def CtTest.zero : CtTest := ⟨(0, 0), (0, 0), (0, 0)⟩

instance : Inhabited CtTest := ⟨CtTest.zero⟩

/-- Embedding of `struct CtCtx` from `src/stats.rs`. -/
structure CtCtx where
  tests : List CtTest
  percentiles : List ℝ

/-- Embedding of `local_cmp` from `src/stats.rs`: NaNs are smaller than
everything; comparisons follow IEEE semantics on the model `F`. -/
noncomputable def local_cmp (x y : F) : Ordering :=
  open scoped Classical in
  if y.isNan then Ordering.gt
  else if x.isNan ∨ flt x y then Ordering.lt
  else if feq x y then Ordering.eq
  else Ordering.gt

/-- Embedding of `percentile_of_sorted` from `src/stats.rs`.  The `assert!`
failures and the potential out-of-bounds accesses `sorted_samples[n]` and
`sorted_samples[n + 1]` are modelled by `none`.  `lrank as usize` is modelled by
`Int.toNat` of the floor (the rank is nonnegative whenever the asserts pass). -/
noncomputable def percentile_of_sorted (sorted_samples : List ℝ) (pct : ℝ) : Option ℝ :=
  open scoped Classical in
  match sorted_samples with
  | [] => none
  | [x] => some x
  | _ =>
    if pct < 0 then none
    else if 100 < pct then none
    else
      let length : ℝ := ((sorted_samples.length - 1 : ℕ) : ℝ)
      let rank := (pct / 100) * length
      let lrank : ℤ := ⌊rank⌋
      let d : ℝ := rank - lrank
      let n : ℕ := lrank.toNat
      match sorted_samples.get? n, sorted_samples.get? (n + 1) with
      | some lo, some hi => some (lo + (hi - lo) * d)
      | _, _ => none

/-- Target percentile for cropped window `i + 1` (zero-based `i` as in the
source loop `(0..100)`): `100 * (1 - 0.5^(10 * (i + 1) / 100))`, with a real
(not natural) exponent, as in `0.5f64.powf`. -/
noncomputable def pctTarget (i : ℕ) : ℝ :=
  100 * (1 - (0.5 : ℝ) ^ (((10 * (i + 1) : ℕ) : ℝ) / 100))

/-- Sequencing of a list of fallible computations, modelling a loop whose body
can panic: the first failure aborts the whole computation. -/
def collectSome {α β : Type _} (f : α → Option β) : List α → Option (List β)
  | [] => some []
  | x :: xs =>
    match f x, collectSome f xs with
    | some y, some ys => some (y :: ys)
    | _, _ => none

/-- The sorted, `f64`-cast pooled durations used by `prepare_percentiles`
(`v.sort()` on the `u64` vector, then the cast to `f64`). -/
noncomputable def sortedSamples (durations : List ℕ) : List ℝ :=
  (durations.mergeSort (· ≤ ·)).map (fun (d : ℕ) => (d : ℝ))

/-- Embedding of `prepare_percentiles` from `src/stats.rs`: sort the pooled
`u64` durations ascending, cast them to `f64`, and extract the 100 percentile
values at the targets `pctTarget 0, ..., pctTarget 99`. -/
noncomputable def prepare_percentiles (durations : List ℕ) : Option (List ℝ) :=
  collectSome (fun i => percentile_of_sorted (sortedSamples durations) (pctTarget i))
    (List.range 100)

/-- Embedding of `update_test_left` from `src/stats.rs` (state-passing form of
the in-place mutation). -/
noncomputable def update_test_left (test : CtTest) (datum : ℝ) : CtTest :=
  let sz := test.sizes.1 + 1
  let diff := datum - test.means.1
  let m := test.means.1 + diff / (sz : ℝ)
  ⟨(m, test.means.2), (test.sq_diffs.1 + diff * (datum - m), test.sq_diffs.2), (sz, test.sizes.2)⟩

/-- Embedding of `update_test_right` from `src/stats.rs`. -/
noncomputable def update_test_right (test : CtTest) (datum : ℝ) : CtTest :=
  let sz := test.sizes.2 + 1
  let diff := datum - test.means.2
  let m := test.means.2 + diff / (sz : ℝ)
  ⟨(test.means.1, m), (test.sq_diffs.1, test.sq_diffs.2 + diff * (datum - m)), (test.sizes.1, sz)⟩

/-- Embedding of `compute_t` from `src/stats.rs`.  The divisions and the square
root follow IEEE special-value semantics through `F`; note `sizes` are cast to
`f64` before the subtraction `n - 1`, so the subtraction is real, not truncated. -/
noncomputable def compute_t (test : CtTest) : F :=
  let num := test.means.1 - test.means.2
  let n0 : ℝ := (test.sizes.1 : ℝ)
  let n1 : ℝ := (test.sizes.2 : ℝ)
  let var0 := finDiv test.sq_diffs.1 (n0 - 1)
  let var1 := finDiv test.sq_diffs.2 (n1 - 1)
  let den := fsqrt (add (div var0 (fin n0)) (div var1 (fin n1)))
  div (fin num) den

/-- Sort key used by the max-selection in `update_ct_stats`: the absolute
t-statistic of a window. -/
noncomputable def tKey (test : CtTest) : F := fabs (compute_t test)

/-- One step of Rust `max_by`: the accumulator is kept exactly when it compares
`Greater` to the next element (so the last of several maxima is returned). -/
noncomputable def maxStep (acc y : CtTest) : CtTest :=
  if local_cmp (tKey acc) (tKey y) = Ordering.gt then acc else y

/-- Embedding of `tests.iter().max_by(|x, y| local_cmp(|t x|, |t y|))`, which
returns `None` on an empty iterator. -/
noncomputable def max_by_t : List CtTest → Option CtTest
  | [] => none
  | t :: ts => some (ts.foldl maxStep t)

/-- Embedding of the summary block of `update_ct_stats` (`src/stats.rs`,
lines 148-159): select the window with maximal absolute t, and report its signed
t, its combined sample size, and the size-normalized statistic.  The `unwrap`
after `max_by` is modelled by `Option.map` (a `none` result is the panic). -/
noncomputable def summarize (tests : List CtTest) : Option CtSummary :=
  (max_by_t tests).map (fun max_test =>
    let sample_size : ℕ := max_test.sizes.1 + max_test.sizes.2
    let max_t := compute_t max_test
    let max_tau := div max_t (fsqrt (fin (sample_size : ℝ)))
    ⟨max_t, max_tau, sample_size⟩)

/-- The `u64 -> f64` cast applied to a sample batch
(`samples.iter().map(|&n| n as f64)`). -/
noncomputable def castSamples (l : List ℕ) : List ℝ := l.map (fun (n : ℕ) => (n : ℝ))

/-- Strict crop filter (`samples.iter().filter(|&&x| x < pct)`). -/
noncomputable def cropLt (pct : ℝ) : List ℝ → List ℝ
  | [] => []
  | x :: xs =>
    open scoped Classical in
    if x < pct then x :: cropLt pct xs else cropLt pct xs

/-- Fold one batch of left samples then one batch of right samples into a single
window accumulator, in source order (all left updates, then all right updates). -/
noncomputable def foldTest (test : CtTest) (ls rs : List ℝ) : CtTest :=
  rs.foldl update_test_right (ls.foldl update_test_left test)

/-- Embedding of the folding loops of `update_ct_stats` (`src/stats.rs`, lines
129-146): window 0 receives every sample unconditionally; the windows paired
with the percentile list by `skip(1).zip(percentiles)` receive the cropped
samples; windows beyond the zip (absent in a well-formed context) are untouched. -/
noncomputable def foldWindows (t0 : CtTest) (rest : List CtTest) (percentiles : List ℝ)
    (ls rs : List ℝ) : List CtTest :=
  foldTest t0 ls rs ::
    (List.zipWith (fun t pct => foldTest t (cropLt pct ls) (cropLt pct rs)) rest percentiles
      ++ rest.drop percentiles.length)

/-- Embedding of `update_ct_stats` from `src/stats.rs`.  On the first call
(`ctx == None`) the percentiles are computed from the pooled samples and 101
fresh accumulators are created; afterwards the context is reused unchanged.
An empty `tests` vector is a panic (`tests[0]` with samples present, or the
`unwrap` of `max_by` over an empty iterator), modelled by `none`. -/
noncomputable def update_ct_stats (ctx : Option CtCtx) (batch : List ℕ × List ℕ) :
    Option (CtSummary × CtCtx) :=
  match
    (match ctx with
     | some c => some (c.tests, c.percentiles)
     | none =>
       match prepare_percentiles (batch.1 ++ batch.2) with
       | some pcts => some (List.replicate 101 CtTest.zero, pcts)
       | none => none)
  with
  | none => none
  | some (tests, percentiles) =>
    match tests with
    | [] => none
    | t0 :: rest =>
      let tests' := foldWindows t0 rest percentiles (castSamples batch.1) (castSamples batch.2)
      match summarize tests' with
      | none => none
      | some summ => some (summ, ⟨tests', percentiles⟩)

/-- Threading of contexts through `CtBencher::go` (`src/ctbench.rs`, lines
75-92): each run feeds the context returned by the previous run back into
`update_ct_stats`, and returns the last summary together with the final context. -/
noncomputable def runSession : List (List ℕ × List ℕ) → Option CtCtx → Option (CtSummary × CtCtx)
  | [], _ => none
  | [b], ctx => update_ct_stats ctx b
  | b :: b2 :: bs, ctx =>
    match update_ct_stats ctx b with
    | none => none
    | some (_, c) => runSession (b2 :: bs) (some c)

/-- Embedding of the raw-sample CSV export of `run_bench_with_bencher`
(`src/ctbench.rs`, lines 297-310): the two sample vectors are zipped, and for
each resulting pair a record with class index 0 is written for each component. -/
def csvRecords (name : String) (samples : List ℕ × List ℕ) : List (String × ℕ × ℕ) :=
  (samples.1.zip samples.2).flatMap (fun xy => [(name, 0, xy.1), (name, 0, xy.2)])

/-! ### Single-accumulator Welford algebra -/

/-- One Welford update of a single (count, mean, sum-of-squared-deviations)
accumulator, as performed per class by `update_test_left` / `update_test_right`. -/
noncomputable def accStep (a : ℕ × ℝ × ℝ) (x : ℝ) : ℕ × ℝ × ℝ :=
  let n := a.1 + 1
  let diff := x - a.2.1
  let m := a.2.1 + diff / (n : ℝ)
  (n, m, a.2.2 + diff * (x - m))

/-- Batch mean of a list of samples (0 for the empty list, by `x / 0 = 0`). -/
noncomputable def batchMean (l : List ℝ) : ℝ := l.sum / l.length

/-- Batch sum of squared deviations from the batch mean. -/
noncomputable def batchSq (l : List ℝ) : ℝ := (l.map (fun x => (x - batchMean l) ^ 2)).sum

/-- Left-class view of a window accumulator: (count, mean, sq_dev). -/
def CtTest.leftAcc (t : CtTest) : ℕ × ℝ × ℝ := (t.sizes.1, t.means.1, t.sq_diffs.1)

/-- Right-class view of a window accumulator. -/
def CtTest.rightAcc (t : CtTest) : ℕ × ℝ × ℝ := (t.sizes.2, t.means.2, t.sq_diffs.2)

/-- The window accumulator whose components are given by the direct batch
formulas over the full per-class sample lists. -/
noncomputable def batchTest (ls rs : List ℝ) : CtTest :=
  ⟨(batchMean ls, batchMean rs), (batchSq ls, batchSq rs), (ls.length, rs.length)⟩

/-- Total linear-interpolation value at percentile `pct` of a sorted list: rank
`r = (pct/100) * (n-1)`, interpolation between the entries at `⌊r⌋` and `⌊r⌋+1`
weighted by the fractional part of `r` (out-of-range accesses default to 0; the
lemmas below only use it where the accesses are in bounds or the weight
degenerates). -/
noncomputable def interpVal (s : List ℝ) (pct : ℝ) : ℝ :=
  let length : ℝ := ((s.length - 1 : ℕ) : ℝ)
  let rank := (pct / 100) * length
  let lrank : ℤ := ⌊rank⌋
  let n : ℕ := lrank.toNat
  s.getD n 0 + (s.getD (n + 1) 0 - s.getD n 0) * (rank - lrank)

/-- Property of the selected window: every window key is either NaN or bounded
by the (non-NaN) key of the selection. -/
def maxKeyOver (r : CtTest) (l : List CtTest) : Prop :=
  ∀ y ∈ l, (tKey y).isNan = true ∨ ((tKey r).isNan = false ∧ fle (tKey y) (tKey r))

/-- The samples admitted into window `w`: window 0 admits everything, window
`w + 1` admits the samples strictly below cutpoint `w`. -/
noncomputable def admitted (pcts : List ℝ) (w : ℕ) (xs : List ℝ) : List ℝ :=
  match w with
  | 0 => xs
  | w' + 1 => cropLt (pcts.getD w' 0) xs

/-- All left samples of a batch history, cast to `f64`, in fold order. -/
noncomputable def allLeft (bs : List (List ℕ × List ℕ)) : List ℝ :=
  (bs.map (fun b => castSamples b.1)).flatten

/-- All right samples of a batch history, cast to `f64`, in fold order. -/
noncomputable def allRight (bs : List (List ℕ × List ℕ)) : List ℝ :=
  (bs.map (fun b => castSamples b.2)).flatten

/-- Invariant tying a window vector to the per-window admitted sample history. -/
def sessionInv (pcts : List ℝ) (Ls Rs : List ℝ) (tests : List CtTest) : Prop :=
  tests.length = 101 ∧ ∀ i, i < 101 →
    tests[i]? = some (foldTest CtTest.zero (admitted pcts i Ls) (admitted pcts i Rs))

/-- Cutpoint formula as stated by the specification, with 1-based window index
`i`: the value at percentile `100 * (1 - 0.5 ^ (10 * i / 100))` of the sorted
pooled samples, extracted by linear interpolation at rank
`r = (pct / 100) * (n - 1)` between the entries at `⌊r⌋` and `⌊r⌋ + 1`,
weighted by the fractional part of `r`. -/
noncomputable def specCutpoint (d : List ℕ) (i : ℕ) : ℝ :=
  let s := sortedSamples d
  let pct : ℝ := 100 * (1 - (0.5 : ℝ) ^ ((10 * (i : ℝ)) / 100))
  let r : ℝ := (pct / 100) * ((s.length - 1 : ℕ) : ℝ)
  s.getD (⌊r⌋).toNat 0 + (s.getD ((⌊r⌋).toNat + 1) 0 - s.getD (⌊r⌋).toNat 0) * (r - ⌊r⌋)

/-- Exchange the per-class components of a window accumulator. -/
def swapTest (t : CtTest) : CtTest :=
  ⟨(t.means.2, t.means.1), (t.sq_diffs.2, t.sq_diffs.1), (t.sizes.2, t.sizes.1)⟩

/-- Exchange the left and right sample vectors of every batch. -/
def swapBatches (bs : List (List ℕ × List ℕ)) : List (List ℕ × List ℕ) :=
  bs.map (fun b => (b.2, b.1))

/-- Exchange the classes throughout a session context. -/
def swapCtx (c : CtCtx) : CtCtx := ⟨c.tests.map swapTest, c.percentiles⟩

/-- Class swap on a summary: the t statistics are negated, the size is kept. -/
def swapSummary (s : CtSummary) : CtSummary := ⟨F.neg s.max_t, F.neg s.max_tau, s.sample_size⟩

theorem accStep_zero (x : ℝ) : accStep (0, 0, 0) x = (1, x, 0) := by
  simp [accStep]

theorem accStep_closed (n : ℕ) (S Q x : ℝ) (hn : n ≠ 0) :
    accStep (n, S / n, Q - S ^ 2 / n) x =
      (n + 1, (S + x) / (n + 1), Q + x ^ 2 - (S + x) ^ 2 / (n + 1)) := by
  have h0 : (n : ℝ) ≠ 0 := Nat.cast_ne_zero.mpr hn
  have h1 : (n : ℝ) + 1 ≠ 0 := by positivity
  refine Prod.ext rfl (Prod.ext ?_ ?_) <;> simp only [accStep] <;> push_cast <;>
    field_simp <;> ring

theorem sum_map_sq_sub (m : ℝ) (l : List ℝ) :
    (l.map (fun x => (x - m) ^ 2)).sum =
      (l.map (fun x => x ^ 2)).sum - 2 * m * l.sum + l.length * m ^ 2 := by
  induction l with
  | nil => simp
  | cons y ys ih =>
    simp only [List.map_cons, List.sum_cons, List.length_cons, ih]
    push_cast
    ring

/-- Folding a list of samples through the Welford update from the zero
accumulator yields the count, the batch mean, and the computational form of the
sum of squared deviations. -/
theorem accFold (l : List ℝ) :
    l.foldl accStep (0, 0, 0) =
      (l.length, l.sum / l.length,
        (l.map (fun x => x ^ 2)).sum - l.sum ^ 2 / l.length) := by
  induction l using List.reverseRecOn with
  | nil => simp
  | append_singleton l x ih =>
    rw [List.foldl_append, ih, List.foldl_cons, List.foldl_nil]
    rcases eq_or_ne l [] with rfl | hl
    · norm_num [accStep]
    · have hn : l.length ≠ 0 := fun h => hl (List.length_eq_zero.mp h)
      rw [accStep_closed l.length l.sum ((l.map (fun x => x ^ 2)).sum) x hn]
      simp only [List.sum_append, List.map_append, List.length_append, List.sum_cons,
        List.map_cons, List.map_nil, List.sum_nil, List.length_cons, List.length_nil]
      push_cast
      norm_num

/-- The computational form of the sum of squared deviations agrees with the
direct batch formula. -/
theorem batchSq_eq (l : List ℝ) :
    batchSq l = (l.map (fun x => x ^ 2)).sum - l.sum ^ 2 / l.length := by
  rcases eq_or_ne l [] with rfl | hl
  · simp [batchSq]
  · have hn : (l.length : ℝ) ≠ 0 := by
      simpa using fun h => hl (List.length_eq_zero.mp h)
    rw [batchSq, sum_map_sq_sub, batchMean]
    field_simp
    ring

/-- Welford fold from the zero accumulator, in direct batch form. -/
theorem accFold_batch (l : List ℝ) :
    l.foldl accStep (0, 0, 0) = (l.length, batchMean l, batchSq l) := by
  rw [accFold, batchSq_eq, batchMean]

/-! ### Per-class views of a window accumulator -/

theorem CtTest.ext_acc {t u : CtTest} (hl : t.leftAcc = u.leftAcc)
    (hr : t.rightAcc = u.rightAcc) : t = u := by
  obtain ⟨⟨m1, m2⟩, ⟨q1, q2⟩, ⟨n1, n2⟩⟩ := t
  obtain ⟨⟨m1', m2'⟩, ⟨q1', q2'⟩, ⟨n1', n2'⟩⟩ := u
  simp only [CtTest.leftAcc, CtTest.rightAcc, Prod.mk.injEq] at hl hr
  simp [hl.1, hl.2.1, hl.2.2, hr.1, hr.2.1, hr.2.2]

theorem update_test_left_leftAcc (t : CtTest) (x : ℝ) :
    (update_test_left t x).leftAcc = accStep t.leftAcc x := rfl

theorem update_test_left_rightAcc (t : CtTest) (x : ℝ) :
    (update_test_left t x).rightAcc = t.rightAcc := rfl

theorem update_test_right_rightAcc (t : CtTest) (x : ℝ) :
    (update_test_right t x).rightAcc = accStep t.rightAcc x := rfl

theorem update_test_right_leftAcc (t : CtTest) (x : ℝ) :
    (update_test_right t x).leftAcc = t.leftAcc := rfl

theorem foldl_update_left_leftAcc (ls : List ℝ) :
    ∀ t : CtTest, (ls.foldl update_test_left t).leftAcc = ls.foldl accStep t.leftAcc := by
  induction ls with
  | nil => intro t; rfl
  | cons x xs ih =>
    intro t
    simp only [List.foldl_cons, ih, update_test_left_leftAcc]

theorem foldl_update_left_rightAcc (ls : List ℝ) :
    ∀ t : CtTest, (ls.foldl update_test_left t).rightAcc = t.rightAcc := by
  induction ls with
  | nil => intro t; rfl
  | cons x xs ih =>
    intro t
    simp only [List.foldl_cons, ih, update_test_left_rightAcc]

theorem foldl_update_right_rightAcc (rs : List ℝ) :
    ∀ t : CtTest, (rs.foldl update_test_right t).rightAcc = rs.foldl accStep t.rightAcc := by
  induction rs with
  | nil => intro t; rfl
  | cons x xs ih =>
    intro t
    simp only [List.foldl_cons, ih, update_test_right_rightAcc]

theorem foldl_update_right_leftAcc (rs : List ℝ) :
    ∀ t : CtTest, (rs.foldl update_test_right t).leftAcc = t.leftAcc := by
  induction rs with
  | nil => intro t; rfl
  | cons x xs ih =>
    intro t
    simp only [List.foldl_cons, ih, update_test_right_leftAcc]

theorem foldTest_leftAcc (t : CtTest) (ls rs : List ℝ) :
    (foldTest t ls rs).leftAcc = ls.foldl accStep t.leftAcc := by
  rw [foldTest, foldl_update_right_leftAcc, foldl_update_left_leftAcc]

theorem foldTest_rightAcc (t : CtTest) (ls rs : List ℝ) :
    (foldTest t ls rs).rightAcc = rs.foldl accStep t.rightAcc := by
  rw [foldTest, foldl_update_right_rightAcc, foldl_update_left_rightAcc]

/-- Folding two successive batches into a window accumulator is the same as
folding their concatenation: accumulator state carries over across batches. -/
theorem foldTest_append (t : CtTest) (l1 r1 l2 r2 : List ℝ) :
    foldTest (foldTest t l1 r1) l2 r2 = foldTest t (l1 ++ l2) (r1 ++ r2) := by
  refine CtTest.ext_acc ?_ ?_
  · rw [foldTest_leftAcc, foldTest_leftAcc, foldTest_leftAcc, List.foldl_append]
  · rw [foldTest_rightAcc, foldTest_rightAcc, foldTest_rightAcc, List.foldl_append]

/-- Folding any sample lists into the zero accumulator yields exactly the
batch-formula accumulator. -/
theorem foldTest_zero (ls rs : List ℝ) : foldTest CtTest.zero ls rs = batchTest ls rs := by
  refine CtTest.ext_acc ?_ ?_
  · rw [foldTest_leftAcc]
    show ls.foldl accStep (0, 0, 0) = (ls.length, batchMean ls, batchSq ls)
    exact accFold_batch ls
  · rw [foldTest_rightAcc]
    show rs.foldl accStep (0, 0, 0) = (rs.length, batchMean rs, batchSq rs)
    exact accFold_batch rs

/-! ### Crop filter lemmas -/

theorem cropLt_append (p : ℝ) (l1 l2 : List ℝ) :
    cropLt p (l1 ++ l2) = cropLt p l1 ++ cropLt p l2 := by
  induction l1 with
  | nil => simp [cropLt]
  | cons x xs ih =>
    simp only [List.cons_append, cropLt]
    split
    · simp [ih]
    · exact ih

/-- Membership characterization of the crop: exactly the samples strictly below
the cutpoint are admitted. -/
theorem mem_cropLt (p x : ℝ) (l : List ℝ) : x ∈ cropLt p l ↔ x ∈ l ∧ x < p := by
  induction l with
  | nil => simp [cropLt]
  | cons y ys ih =>
    simp only [cropLt]
    split
    · rename_i hy
      simp only [List.mem_cons, ih]
      constructor
      · rintro (rfl | ⟨h1, h2⟩)
        · exact ⟨Or.inl rfl, hy⟩
        · exact ⟨Or.inr h1, h2⟩
      · rintro ⟨rfl | h1, h2⟩
        · exact Or.inl rfl
        · exact Or.inr ⟨h1, h2⟩
    · rename_i hy
      simp only [ih, List.mem_cons]
      constructor
      · rintro ⟨h1, h2⟩
        exact ⟨Or.inr h1, h2⟩
      · rintro ⟨rfl | h1, h2⟩
        · exact absurd h2 hy
        · exact ⟨h1, h2⟩

/-! ### Percentile extraction: success and closed form -/

theorem percentile_of_sorted_nil (pct : ℝ) : percentile_of_sorted [] pct = none := rfl

theorem percentile_of_sorted_single (x pct : ℝ) : percentile_of_sorted [x] pct = some x := rfl

/-- On a nonempty sorted list and a percentile in `[0, 100)`, the extraction
succeeds (no assert failure, every interpolation index in bounds) and returns
the linear-interpolation value. -/
theorem percentile_of_sorted_eq (s : List ℝ) (pct : ℝ) (hs : s ≠ [])
    (h0 : 0 ≤ pct) (h1 : pct < 100) :
    percentile_of_sorted s pct = some (interpVal s pct) := by
  match s with
  | [] => exact absurd rfl hs
  | [x] =>
    rw [percentile_of_sorted_single]
    simp [interpVal]
  | a :: b :: t =>
    set s := a :: b :: t with hsdef
    have hlen : 2 ≤ s.length := by simp [hsdef]
    set N : ℕ := s.length - 1 with hN
    have hN1 : 1 ≤ N := by omega
    have hNlt : N < s.length := by omega
    have hNr : (0 : ℝ) < (N : ℝ) := by exact_mod_cast Nat.lt_of_lt_of_le Nat.zero_lt_one hN1
    set rank : ℝ := (pct / 100) * (N : ℝ) with hrank
    have hrank0 : 0 ≤ rank := by
      apply mul_nonneg (by positivity) (by positivity)
    have hrankN : rank < (N : ℝ) := by
      have hfrac : pct / 100 < 1 := (div_lt_one (by norm_num)).mpr h1
      calc rank = (pct / 100) * (N : ℝ) := hrank
        _ < 1 * (N : ℝ) := mul_lt_mul_of_pos_right hfrac hNr
        _ = (N : ℝ) := one_mul _
    have hfl0 : 0 ≤ ⌊rank⌋ := Int.floor_nonneg.mpr hrank0
    have hflN : ⌊rank⌋ < (N : ℤ) := by
      rw [Int.floor_lt]
      exact_mod_cast hrankN
    set n : ℕ := (⌊rank⌋).toNat with hn
    have hcast : (n : ℤ) = ⌊rank⌋ := Int.toNat_of_nonneg hfl0
    have hnN : n < N := by omega
    have hn1 : n + 1 < s.length := by omega
    have hget1 : s.get? n = some (s.getD n 0) := by
      rw [List.get?_eq_getElem?, List.getElem?_eq_getElem (by omega),
        List.getD_eq_getElem?_getD, List.getElem?_eq_getElem (by omega)]
      rfl
    have hget2 : s.get? (n + 1) = some (s.getD (n + 1) 0) := by
      rw [List.get?_eq_getElem?, List.getElem?_eq_getElem hn1,
        List.getD_eq_getElem?_getD, List.getElem?_eq_getElem hn1]
      rfl
    show percentile_of_sorted (a :: b :: t) pct = some (interpVal s pct)
    rw [percentile_of_sorted]
    rw [if_neg (by linarith), if_neg (by linarith)]
    simp only [← hsdef, ← hN, ← hrank, ← hn]
    rw [hget1, hget2]
    simp only [interpVal, ← hN, ← hrank, ← hn]
    push_cast [hcast]
    · exact fun h => h
    · intro x hx
      simp at hx

theorem pctTarget_nonneg (i : ℕ) : 0 ≤ pctTarget i := by
  have h : (0.5 : ℝ) ^ (((10 * (i + 1) : ℕ) : ℝ) / 100) ≤ 1 :=
    Real.rpow_le_one (by norm_num) (by norm_num) (by positivity)
  rw [pctTarget]
  nlinarith

theorem pctTarget_lt_100 (i : ℕ) : pctTarget i < 100 := by
  have h : 0 < (0.5 : ℝ) ^ (((10 * (i + 1) : ℕ) : ℝ) / 100) :=
    Real.rpow_pos_of_pos (by norm_num) _
  rw [pctTarget]
  nlinarith

theorem pctTarget_mono {i j : ℕ} (hij : i ≤ j) : pctTarget i ≤ pctTarget j := by
  have he : (((10 * (i + 1) : ℕ) : ℝ) / 100) ≤ (((10 * (j + 1) : ℕ) : ℝ) / 100) := by
    have : ((10 * (i + 1) : ℕ) : ℝ) ≤ ((10 * (j + 1) : ℕ) : ℝ) := by
      exact_mod_cast Nat.mul_le_mul_left 10 (Nat.add_le_add_right hij 1)
    linarith
  have h : (0.5 : ℝ) ^ (((10 * (j + 1) : ℕ) : ℝ) / 100)
      ≤ (0.5 : ℝ) ^ (((10 * (i + 1) : ℕ) : ℝ) / 100) :=
    Real.rpow_le_rpow_of_exponent_ge (by norm_num) (by norm_num) he
  rw [pctTarget, pctTarget]
  nlinarith

theorem collectSome_of_all_some {α β : Type _} {f : α → Option β} {g : α → β} :
    ∀ l : List α, (∀ a ∈ l, f a = some (g a)) → collectSome f l = some (l.map g) := by
  intro l
  induction l with
  | nil => intro _; rfl
  | cons x xs ih =>
    intro h
    have hx := h x (List.mem_cons_self x xs)
    have hxs := ih (fun a ha => h a (List.mem_cons_of_mem x ha))
    simp only [collectSome, hx, hxs, List.map_cons]

theorem collectSome_cons_none {α β : Type _} {f : α → Option β} {x : α} (xs : List α)
    (hx : f x = none) : collectSome f (x :: xs) = none := by
  simp only [collectSome, hx]

/-- The sorted, `f64`-cast pooled durations used by `prepare_percentiles`. -/
theorem sortedSamples_sorted (durations : List ℕ) :
    (sortedSamples durations).Sorted (· ≤ ·) := by
  have h : (durations.mergeSort (· ≤ ·)).Sorted (· ≤ ·) := List.sorted_mergeSort' durations
  exact List.Pairwise.map _ (fun a b hab => Nat.cast_le.mpr hab) h

theorem sortedSamples_length (durations : List ℕ) :
    (sortedSamples durations).length = durations.length := by
  rw [sortedSamples]
  rw [List.length_map]
  exact (List.mergeSort_perm durations _).length_eq

theorem sortedSamples_ne_nil {durations : List ℕ} (h : durations ≠ []) :
    sortedSamples durations ≠ [] := by
  intro hc
  apply h
  have hlen := sortedSamples_length durations
  rw [hc] at hlen
  exact List.length_eq_zero.mp hlen.symm

/-- Pooling in either order yields the same sorted sample list (sorting is
invariant under permutation of the input). -/
theorem sortedSamples_comm (L R : List ℕ) :
    sortedSamples (L ++ R) = sortedSamples (R ++ L) := by
  have h : (L ++ R).mergeSort (· ≤ ·) = (R ++ L).mergeSort (· ≤ ·) := by
    apply List.eq_of_perm_of_sorted (r := (· ≤ ·))
    · exact (List.mergeSort_perm _ _).trans
        ((List.perm_append_comm).trans (List.mergeSort_perm _ _).symm)
    · exact List.sorted_mergeSort' _
    · exact List.sorted_mergeSort' _
  rw [sortedSamples, sortedSamples, h]

/-- On a nonempty pool, `prepare_percentiles` succeeds and returns the 100
interpolation values at the targets `pctTarget 0, ..., pctTarget 99`. -/
theorem prepare_percentiles_eq (durations : List ℕ) (h : durations ≠ []) :
    prepare_percentiles durations =
      some ((List.range 100).map (fun i => interpVal (sortedSamples durations) (pctTarget i))) := by
  rw [prepare_percentiles]
  exact collectSome_of_all_some _ (fun i _ =>
    percentile_of_sorted_eq _ _ (sortedSamples_ne_nil h) (pctTarget_nonneg i) (pctTarget_lt_100 i))

/-- The percentile profiler fails (assert inside `percentile_of_sorted`) on the
empty pool. -/
theorem sortedSamples_nil : sortedSamples [] = [] := by
  have hlen := sortedSamples_length []
  exact List.length_eq_zero.mp hlen

theorem prepare_percentiles_nil : prepare_percentiles [] = none := by
  rw [prepare_percentiles]
  rw [show List.range 100 = 0 :: (List.range 99).map Nat.succ by rw [List.range_succ_eq_map]]
  apply collectSome_cons_none
  rw [sortedSamples_nil]
  exact percentile_of_sorted_nil _

theorem prepare_percentiles_length (durations : List ℕ) (h : durations ≠ []) :
    ∃ l, prepare_percentiles durations = some l ∧ l.length = 100 := by
  refine ⟨_, prepare_percentiles_eq durations h, ?_⟩
  simp

theorem sorted_getD_mono {s : List ℝ} (hs : s.Sorted (· ≤ ·)) {i j : ℕ} (hij : i ≤ j)
    (hj : j < s.length) : s.getD i 0 ≤ s.getD j 0 := by
  have hi : i < s.length := lt_of_le_of_lt hij hj
  rw [List.getD_eq_getElem?_getD, List.getD_eq_getElem?_getD,
    List.getElem?_eq_getElem hi, List.getElem?_eq_getElem hj]
  exact hs.rel_get_of_le (show (⟨i, hi⟩ : Fin s.length) ≤ ⟨j, hj⟩ from hij)

/-- Monotonicity of linear interpolation in the percentile, on a sorted list. -/
theorem interpVal_mono {s : List ℝ} (hsort : s.Sorted (· ≤ ·)) {p q : ℝ}
    (hp0 : 0 ≤ p) (hpq : p ≤ q) (hq1 : q < 100) :
    interpVal s p ≤ interpVal s q := by
  match s with
  | [] => simp [interpVal]
  | [x] => simp [interpVal]
  | a :: b :: t =>
    simp only [interpVal]
    set s := a :: b :: t with hsdef
    have hlen : 2 ≤ s.length := by simp [hsdef]
    set N : ℕ := s.length - 1 with hN
    have hN1 : 1 ≤ N := by omega
    have hNr : (0 : ℝ) < (N : ℝ) := by exact_mod_cast Nat.lt_of_lt_of_le Nat.zero_lt_one hN1
    have hq0 : 0 ≤ q := le_trans hp0 hpq
    set rp : ℝ := (p / 100) * (N : ℝ) with hrp
    set rq : ℝ := (q / 100) * (N : ℝ) with hrq
    have hrp0 : 0 ≤ rp := mul_nonneg (by positivity) (le_of_lt hNr)
    have hrq0 : 0 ≤ rq := mul_nonneg (by positivity) (le_of_lt hNr)
    have hrpq : rp ≤ rq := by
      apply mul_le_mul_of_nonneg_right _ (le_of_lt hNr)
      linarith
    have hrqN : rq < (N : ℝ) := by
      have hfrac : q / 100 < 1 := (div_lt_one (by norm_num)).mpr hq1
      calc rq = (q / 100) * (N : ℝ) := hrq
        _ < 1 * (N : ℝ) := mul_lt_mul_of_pos_right hfrac hNr
        _ = (N : ℝ) := one_mul _
    have hfp0 : 0 ≤ ⌊rp⌋ := Int.floor_nonneg.mpr hrp0
    have hfq0 : 0 ≤ ⌊rq⌋ := Int.floor_nonneg.mpr hrq0
    have hfqN : ⌊rq⌋ < (N : ℤ) := by
      rw [Int.floor_lt]
      exact_mod_cast hrqN
    have hfpq : ⌊rp⌋ ≤ ⌊rq⌋ := Int.floor_le_floor hrpq
    set np : ℕ := (⌊rp⌋).toNat with hnp
    set nq : ℕ := (⌊rq⌋).toNat with hnq
    have hcp : (np : ℤ) = ⌊rp⌋ := Int.toNat_of_nonneg hfp0
    have hcq : (nq : ℤ) = ⌊rq⌋ := Int.toNat_of_nonneg hfq0
    have hcpr : (np : ℝ) = ((⌊rp⌋ : ℤ) : ℝ) := by exact_mod_cast congrArg (Int.cast : ℤ → ℝ) hcp
    have hcqr : (nq : ℝ) = ((⌊rq⌋ : ℤ) : ℝ) := by exact_mod_cast congrArg (Int.cast : ℤ → ℝ) hcq
    have hnpq : np ≤ nq := by omega
    have hnqN : nq < N := by omega
    have hnq1len : nq + 1 < s.length := by omega
    have hnplen : np + 1 < s.length := by omega
    have hdp0 : 0 ≤ rp - ((⌊rp⌋ : ℤ) : ℝ) := by linarith [Int.floor_le rp]
    have hdp1 : rp - ((⌊rp⌋ : ℤ) : ℝ) < 1 := by linarith [Int.lt_floor_add_one rp]
    have hdq0 : 0 ≤ rq - ((⌊rq⌋ : ℤ) : ℝ) := by linarith [Int.floor_le rq]
    have hS1 : s.getD np 0 ≤ s.getD (np + 1) 0 :=
      sorted_getD_mono hsort (Nat.le_succ np) hnplen
    have hS2 : s.getD nq 0 ≤ s.getD (nq + 1) 0 :=
      sorted_getD_mono hsort (Nat.le_succ nq) hnq1len
    rcases eq_or_lt_of_le hnpq with heq | hlt
    · have hfeq : ⌊rp⌋ = ⌊rq⌋ := by omega
      rw [← heq, ← hfeq]
      have hd : rp - ((⌊rp⌋ : ℤ) : ℝ) ≤ rq - ((⌊rp⌋ : ℤ) : ℝ) := by linarith
      have hmul : (s.getD (np + 1) 0 - s.getD np 0) * (rp - ((⌊rp⌋ : ℤ) : ℝ))
          ≤ (s.getD (np + 1) 0 - s.getD np 0) * (rq - ((⌊rp⌋ : ℤ) : ℝ)) :=
        mul_le_mul_of_nonneg_left hd (by linarith)
      linarith
    · have hv1 : s.getD np 0 + (s.getD (np + 1) 0 - s.getD np 0) * (rp - ((⌊rp⌋ : ℤ) : ℝ))
          ≤ s.getD (np + 1) 0 := by
        have hmul : (s.getD (np + 1) 0 - s.getD np 0) * (rp - ((⌊rp⌋ : ℤ) : ℝ))
            ≤ (s.getD (np + 1) 0 - s.getD np 0) * 1 :=
          mul_le_mul_of_nonneg_left (le_of_lt hdp1) (by linarith)
        linarith
      have hv2 : s.getD (np + 1) 0 ≤ s.getD nq 0 :=
        sorted_getD_mono hsort hlt (by omega)
      have hv3 : s.getD nq 0
          ≤ s.getD nq 0 + (s.getD (nq + 1) 0 - s.getD nq 0) * (rq - ((⌊rq⌋ : ℤ) : ℝ)) := by
        have hmul : 0 ≤ (s.getD (nq + 1) 0 - s.getD nq 0) * (rq - ((⌊rq⌋ : ℤ) : ℝ)) :=
          mul_nonneg (by linarith) hdq0
        linarith
      linarith

/-! ### Ordering lemmas for the float model -/

namespace F

theorem fle_refl_of_not_nan {x : F} (hx : x.isNan = false) : fle x x := by
  cases x <;> simp_all [isNan, fle, flt, feq]

theorem fle_not_nan_left {x y : F} (h : fle x y) : x.isNan = false := by
  cases x <;> cases y <;> simp_all [isNan, fle, flt, feq]

theorem fle_not_nan_right {x y : F} (h : fle x y) : y.isNan = false := by
  cases x <;> cases y <;> simp_all [isNan, fle, flt, feq]

theorem fle_trans {x y z : F} (h1 : fle x y) (h2 : fle y z) : fle x z := by
  cases x <;> cases y <;> cases z <;>
    simp_all [fle, flt, feq] <;>
    rcases h1 with h1 | h1 <;> rcases h2 with h2 | h2 <;>
    first
      | (left; linarith)
      | (right; linarith)

theorem fle_of_not_flt_not_feq {x y : F} (hx : x.isNan = false) (hy : y.isNan = false)
    (h1 : ¬ flt x y) (h2 : ¬ feq x y) : fle y x := by
  match x, y with
  | nan, _ => simp [isNan] at hx
  | fin _, nan => simp [isNan] at hy
  | inf, nan => simp [isNan] at hy
  | ninf, nan => simp [isNan] at hy
  | fin a, fin b =>
    simp only [flt, feq] at h1 h2
    rcases lt_trichotomy a b with hab | hab | hab
    · exact absurd hab h1
    · exact absurd hab h2
    · exact Or.inl hab
  | fin _, inf => exact absurd trivial h1
  | fin _, ninf => exact Or.inl trivial
  | inf, fin _ => exact Or.inl trivial
  | inf, inf => exact absurd trivial h2
  | inf, ninf => exact Or.inl trivial
  | ninf, fin _ => exact absurd trivial h1
  | ninf, inf => exact absurd trivial h1
  | ninf, ninf => exact absurd trivial h2

end F

theorem local_cmp_gt_cases {x y : F} (h : local_cmp x y = Ordering.gt) :
    y.isNan = true ∨ (x.isNan = false ∧ y.isNan = false ∧ fle y x) := by
  by_cases h1 : y.isNan = true
  · exact Or.inl h1
  · by_cases h2 : (x.isNan = true ∨ flt x y)
    · rw [local_cmp, if_neg (by simpa using h1), if_pos h2] at h
      simp at h
    · by_cases h3 : feq x y
      · rw [local_cmp, if_neg (by simpa using h1), if_neg h2, if_pos h3] at h
        simp at h
      · push_neg at h2
        exact Or.inr ⟨by simpa using h2.1, by simpa using h1,
          F.fle_of_not_flt_not_feq (by simpa using h2.1) (by simpa using h1) h2.2 h3⟩

theorem local_cmp_not_gt {x y : F} (h : local_cmp x y ≠ Ordering.gt) :
    y.isNan = false ∧ (x.isNan = true ∨ fle x y) := by
  by_cases h1 : y.isNan = true
  · exact absurd (by rw [local_cmp, if_pos h1]) h
  · refine ⟨by simpa using h1, ?_⟩
    by_cases h2 : (x.isNan = true ∨ flt x y)
    · rcases h2 with h2 | h2
      · exact Or.inl h2
      · exact Or.inr (Or.inl h2)
    · by_cases h3 : feq x y
      · exact Or.inr (Or.inr h3)
      · exact absurd (by rw [local_cmp, if_neg (by simpa using h1), if_neg h2, if_neg h3]) h

theorem maxKeyOver_step {t y r : CtTest}
    (hgood : maxKeyOver r [maxStep t y]) :
    maxKeyOver r [t, y] := by
  intro z hz
  rw [maxStep] at hgood
  by_cases hc : local_cmp (tKey t) (tKey y) = Ordering.gt
  · rw [if_pos hc] at hgood
    have hgt := hgood t (by simp)
    rcases List.mem_pair.mp hz with rfl | rfl
    · exact hgt
    · rcases local_cmp_gt_cases hc with hnan | ⟨htn, hyn, hle⟩
      · exact Or.inl hnan
      · rcases hgt with hbad | ⟨hrn, hler⟩
        · rw [htn] at hbad
          exact absurd hbad (by simp)
        · exact Or.inr ⟨hrn, F.fle_trans hle hler⟩
  · rw [if_neg hc] at hgood
    have hgt := hgood y (by simp)
    rcases List.mem_pair.mp hz with rfl | rfl
    · obtain ⟨hyn, hor⟩ := local_cmp_not_gt hc
      rcases hor with htn | hle
      · exact Or.inl htn
      · rcases hgt with hbad | ⟨hrn, hler⟩
        · rw [hyn] at hbad
          exact absurd hbad (by simp)
        · exact Or.inr ⟨hrn, F.fle_trans hle hler⟩
    · exact hgt

/-- Specification of `max_by_t` on a nonempty list: the selection is a member
and its absolute t is maximal, with NaN keys treated as smaller than any
non-NaN key (a NaN window is selected only if every window is NaN). -/
theorem max_by_t_spec (t : CtTest) (ts : List CtTest) :
    ∃ r, max_by_t (t :: ts) = some r ∧ r ∈ t :: ts ∧ maxKeyOver r (t :: ts) := by
  induction ts generalizing t with
  | nil =>
    refine ⟨t, rfl, List.mem_singleton_self t, ?_⟩
    intro y hy
    rw [List.mem_singleton.mp hy]
    rcases hnan : (tKey t).isNan with hf | ht
    · exact Or.inr ⟨rfl, F.fle_refl_of_not_nan hnan⟩
    · exact Or.inl rfl
  | cons y ys ih =>
    obtain ⟨r, hmax, hmem, hgood⟩ := ih (maxStep t y)
    refine ⟨r, ?_, ?_, ?_⟩
    · rw [max_by_t] at hmax ⊢
      simpa [List.foldl_cons] using hmax
    · rcases List.mem_cons.mp hmem with hr | hr
      · rw [hr, maxStep]
        split
        · exact List.mem_cons_self t (y :: ys)
        · exact List.mem_cons_of_mem t (List.mem_cons_self y ys)
      · exact List.mem_cons_of_mem t (List.mem_cons_of_mem y hr)
    · intro z hz
      have hstep : maxKeyOver r [t, y] :=
        maxKeyOver_step (fun w hw => hgood w (by
          rw [List.mem_singleton.mp hw]
          exact List.mem_cons_self _ ys))
      rcases List.mem_cons.mp hz with rfl | hz2
      · exact hstep z (by simp)
      · rcases List.mem_cons.mp hz2 with rfl | hz3
        · exact hstep z (by simp)
        · exact hgood z (List.mem_cons_of_mem _ hz3)

/-! ### Summarizer and update characterization -/

theorem summarize_cons (t : CtTest) (ts : List CtTest) :
    ∃ r, r ∈ t :: ts ∧ maxKeyOver r (t :: ts) ∧
      summarize (t :: ts) = some ⟨compute_t r,
        div (compute_t r) (fsqrt (fin ((r.sizes.1 + r.sizes.2 : ℕ) : ℝ))),
        r.sizes.1 + r.sizes.2⟩ := by
  obtain ⟨r, hmax, hmem, hgood⟩ := max_by_t_spec t ts
  exact ⟨r, hmem, hgood, by rw [summarize, hmax]; rfl⟩

theorem summarize_foldWindows (t0 : CtTest) (rest : List CtTest) (pcts ls rs : List ℝ) :
    ∃ s, summarize (foldWindows t0 rest pcts ls rs) = some s := by
  rw [foldWindows]
  obtain ⟨r, _, _, h⟩ := summarize_cons (foldTest t0 ls rs) _
  exact ⟨_, h⟩

/-- On a context with a nonempty window vector, `update_ct_stats` succeeds,
folds the batch into the windows, and returns the percentiles unchanged. -/
theorem update_ct_stats_some (c : CtCtx) (t0 : CtTest) (rest : List CtTest)
    (hc : c.tests = t0 :: rest) (batch : List ℕ × List ℕ) :
    ∃ s, update_ct_stats (some c) batch = some (s,
        ⟨foldWindows t0 rest c.percentiles (castSamples batch.1) (castSamples batch.2),
          c.percentiles⟩) ∧
      summarize (foldWindows t0 rest c.percentiles (castSamples batch.1)
        (castSamples batch.2)) = some s := by
  obtain ⟨s, hs⟩ := summarize_foldWindows t0 rest c.percentiles
    (castSamples batch.1) (castSamples batch.2)
  refine ⟨s, ?_, hs⟩
  rw [update_ct_stats, hc]
  simp only [hs]

/-- The first call (`ctx == None`) behaves like a call on the freshly built
context, once the percentile profiling has succeeded. -/
theorem update_ct_stats_none (L R : List ℕ) (pcts : List ℝ)
    (hp : prepare_percentiles (L ++ R) = some pcts) :
    update_ct_stats none (L, R) =
      update_ct_stats (some ⟨List.replicate 101 CtTest.zero, pcts⟩) (L, R) := by
  rw [update_ct_stats, update_ct_stats]
  simp only [hp]

/-! ### Session invariant: each window accumulator is the fold of the admitted
samples over the whole history -/

theorem admitted_nil (pcts : List ℝ) (w : ℕ) : admitted pcts w [] = [] := by
  cases w <;> rfl

theorem admitted_append (pcts : List ℝ) (w : ℕ) (xs ys : List ℝ) :
    admitted pcts w (xs ++ ys) = admitted pcts w xs ++ admitted pcts w ys := by
  cases w with
  | zero => rfl
  | succ w' => exact cropLt_append _ xs ys

theorem sessionInv_init (pcts : List ℝ) :
    sessionInv pcts [] [] (List.replicate 101 CtTest.zero) := by
  refine ⟨by simp, fun i hi => ?_⟩
  rw [List.getElem?_replicate, if_pos hi, admitted_nil]
  rfl

theorem foldWindows_length (t0 : CtTest) (rest : List CtTest) (pcts ls rs : List ℝ)
    (hlen : rest.length = pcts.length) :
    (foldWindows t0 rest pcts ls rs).length = rest.length + 1 := by
  simp [foldWindows, hlen]

theorem foldWindows_zero (t0 : CtTest) (rest : List CtTest) (pcts ls rs : List ℝ) :
    (foldWindows t0 rest pcts ls rs)[0]? = some (foldTest t0 ls rs) := by
  rw [foldWindows, List.getElem?_cons_zero]

theorem foldWindows_succ (t0 : CtTest) (rest : List CtTest) (pcts ls rs : List ℝ)
    (hlen : rest.length = pcts.length) (i : ℕ) (t : CtTest) (p : ℝ)
    (ht : rest[i]? = some t) (hp : pcts[i]? = some p) :
    (foldWindows t0 rest pcts ls rs)[i + 1]? =
      some (foldTest t (cropLt p ls) (cropLt p rs)) := by
  rw [foldWindows, List.getElem?_cons_succ, ← hlen, List.drop_length, List.append_nil]
  rw [List.getElem?_zipWith', ht, hp]
  rfl

theorem sessionInv_step {pcts Ls Rs : List ℝ} {tests : List CtTest} (hp : pcts.length = 100)
    (hinv : sessionInv pcts Ls Rs tests) (L R : List ℝ) :
    ∃ t0 rest, tests = t0 :: rest ∧
      sessionInv pcts (Ls ++ L) (Rs ++ R) (foldWindows t0 rest pcts L R) := by
  obtain ⟨hlen, hget⟩ := hinv
  obtain ⟨t0, rest, rfl⟩ : ∃ t0 rest, tests = t0 :: rest := by
    cases tests with
    | nil => simp at hlen
    | cons a l => exact ⟨a, l, rfl⟩
  have hrest : rest.length = 100 := by simpa using hlen
  refine ⟨t0, rest, rfl, ?_, ?_⟩
  · rw [foldWindows_length t0 rest pcts L R (by rw [hrest, hp])]
    omega
  · intro i hi
    match i with
    | 0 =>
      rw [foldWindows_zero]
      have h0 := hget 0 (by norm_num)
      rw [List.getElem?_cons_zero] at h0
      obtain rfl : t0 = foldTest CtTest.zero Ls Rs := by
        simpa [admitted] using h0
      rw [foldTest_append]
      simp [admitted]
    | i' + 1 =>
      have hi' : i' < 100 := by omega
      have hrt : rest[i']? =
          some (foldTest CtTest.zero (admitted pcts (i' + 1) Ls) (admitted pcts (i' + 1) Rs)) := by
        have hidx := hget (i' + 1) hi
        rwa [List.getElem?_cons_succ] at hidx
      obtain ⟨p, hpp⟩ : ∃ p, pcts[i']? = some p := by
        rw [List.getElem?_eq_getElem (by omega)]
        exact ⟨_, rfl⟩
      rw [foldWindows_succ t0 rest pcts L R (by rw [hrest, hp]) i' _ p hrt hpp]
      have hgd : pcts.getD i' 0 = p := by
        rw [List.getD_eq_getElem?_getD, hpp]
        rfl
      have haL : ∀ xs : List ℝ, admitted pcts (i' + 1) xs = cropLt p xs := by
        intro xs
        simp only [admitted]
        rw [hgd]
      rw [foldTest_append, admitted_append, admitted_append]
      simp only [haL]

theorem allLeft_cons (b : List ℕ × List ℕ) (bs : List (List ℕ × List ℕ)) :
    allLeft (b :: bs) = castSamples b.1 ++ allLeft bs := by
  rw [allLeft, allLeft, List.map_cons, List.flatten_cons]

theorem allRight_cons (b : List ℕ × List ℕ) (bs : List (List ℕ × List ℕ)) :
    allRight (b :: bs) = castSamples b.2 ++ allRight bs := by
  rw [allRight, allRight, List.map_cons, List.flatten_cons]

/-- Running any nonempty batch sequence from a context satisfying the session
invariant succeeds, keeps the percentiles, and leaves every window accumulator
equal to the fold of all samples admitted into it over the whole history. -/
theorem runSession_inv (bs : List (List ℕ × List ℕ)) (hbs : bs ≠ []) :
    ∀ (c : CtCtx) (Ls Rs : List ℝ), c.percentiles.length = 100 →
      sessionInv c.percentiles Ls Rs c.tests →
      ∃ s c', runSession bs (some c) = some (s, c') ∧ c'.percentiles = c.percentiles ∧
        sessionInv c.percentiles (Ls ++ allLeft bs) (Rs ++ allRight bs) c'.tests ∧
        summarize c'.tests = some s := by
  induction bs with
  | nil => exact absurd rfl hbs
  | cons b bs ih =>
    intro c Ls Rs hp hinv
    obtain ⟨t0, rest, hc, hinv'⟩ := sessionInv_step hp hinv (castSamples b.1) (castSamples b.2)
    obtain ⟨s, hupd, hsumm⟩ := update_ct_stats_some c t0 rest hc b
    cases bs with
    | nil =>
      refine ⟨s, ⟨foldWindows t0 rest c.percentiles (castSamples b.1) (castSamples b.2),
        c.percentiles⟩, ?_, rfl, ?_, hsumm⟩
      · show runSession [b] (some c) = _
        rw [runSession]
        exact hupd
      · rw [allLeft_cons, allRight_cons]
        simpa [allLeft, allRight] using hinv'
    | cons b2 bs2 =>
      have hstep : runSession (b :: b2 :: bs2) (some c) =
          runSession (b2 :: bs2) (some ⟨foldWindows t0 rest c.percentiles
            (castSamples b.1) (castSamples b.2), c.percentiles⟩) := by
        rw [runSession, hupd]
      obtain ⟨s', c', hrun, hpc, hinv2, hsumm2⟩ :=
        ih (by simp) ⟨foldWindows t0 rest c.percentiles (castSamples b.1) (castSamples b.2),
          c.percentiles⟩ (Ls ++ castSamples b.1) (Rs ++ castSamples b.2) hp hinv'
      refine ⟨s', c', by rw [hstep, hrun], hpc, ?_, hsumm2⟩
      rw [allLeft_cons, allRight_cons, ← List.append_assoc, ← List.append_assoc]
      exact hinv2

/-- A session started with no context behaves like one started on the freshly
profiled context (percentiles from the first pooled batch, 101 zero windows). -/
theorem runSession_none_eq (b : List ℕ × List ℕ) (bs : List (List ℕ × List ℕ)) (pcts : List ℝ)
    (hp : prepare_percentiles (b.1 ++ b.2) = some pcts) :
    runSession (b :: bs) none =
      runSession (b :: bs) (some ⟨List.replicate 101 CtTest.zero, pcts⟩) := by
  have h : update_ct_stats none b =
      update_ct_stats (some ⟨List.replicate 101 CtTest.zero, pcts⟩) b :=
    update_ct_stats_none b.1 b.2 pcts hp
  cases bs with
  | nil =>
    rw [runSession, runSession]
    exact h
  | cons b2 bs2 =>
    rw [runSession, h]
    rw [runSession]

theorem replicate_101_cons :
    List.replicate 101 CtTest.zero = CtTest.zero :: List.replicate 100 CtTest.zero := rfl

/-- C1: threading batches through one session accumulates: after any nonempty
history, every window accumulator equals the direct batch-formula accumulator
over exactly the samples admitted into that window across all batches. -/
theorem c1_accumulators_are_batch_stats (b : List ℕ × List ℕ) (bs : List (List ℕ × List ℕ))
    (hb : b.1 ++ b.2 ≠ []) :
    ∃ s c pcts, runSession (b :: bs) none = some (s, c) ∧
      prepare_percentiles (b.1 ++ b.2) = some pcts ∧
      c.percentiles = pcts ∧ c.tests.length = 101 ∧
      (∀ i, i < 101 → c.tests[i]? =
        some (batchTest (admitted pcts i (allLeft (b :: bs)))
          (admitted pcts i (allRight (b :: bs))))) ∧
      (∀ xs : List ℝ, admitted pcts 0 xs = xs) := by
  obtain ⟨pcts, hp, hplen⟩ := prepare_percentiles_length (b.1 ++ b.2) hb
  obtain ⟨s, c', hrun, hpc, hinv, -⟩ :=
    runSession_inv (b :: bs) (by simp) ⟨List.replicate 101 CtTest.zero, pcts⟩ [] []
      hplen (sessionInv_init pcts)
  obtain ⟨hlen, hget⟩ := hinv
  refine ⟨s, c', pcts, ?_, hp, hpc, hlen, ?_, fun xs => rfl⟩
  · rw [runSession_none_eq b bs pcts hp]
    exact hrun
  · intro i hi
    rw [hget i hi, List.nil_append, List.nil_append, foldTest_zero]

/-- C1 witness. -/
theorem c1_accumulators_are_batch_stats_witness :
    ∃ s c pcts, runSession [([5], [])] none = some (s, c) ∧
      prepare_percentiles ([5] ++ []) = some pcts ∧
      c.percentiles = pcts ∧ c.tests.length = 101 ∧
      (∀ i, i < 101 → c.tests[i]? =
        some (batchTest (admitted pcts i (allLeft [([5], [])]))
          (admitted pcts i (allRight [([5], [])])))) ∧
      (∀ xs : List ℝ, admitted pcts 0 xs = xs) :=
  c1_accumulators_are_batch_stats ([5], []) [] (by simp)

/-- C3: one fold of a batch pair routes every sample into window 0, routes into
window `i` (for `1 ≤ i ≤ 100`) exactly the samples strictly below cutpoint
`i - 1`, and each single sample updates its accumulator by the Welford step
`count += 1; delta = x - mean; mean += delta / count; sq += delta * (x - mean)`. -/
theorem c3_fold_routing (c : CtCtx) (t0 : CtTest) (rest : List CtTest)
    (hc : c.tests = t0 :: rest) (hrest : rest.length = 100)
    (hpl : c.percentiles.length = 100) (batch : List ℕ × List ℕ) :
    ∃ s c', update_ct_stats (some c) batch = some (s, c') ∧
      c'.tests[0]? = some (foldTest t0 (castSamples batch.1) (castSamples batch.2)) ∧
      (∀ i, 1 ≤ i → i ≤ 100 → ∀ p t, c.percentiles[i - 1]? = some p → rest[i - 1]? = some t →
        c'.tests[i]? =
          some (foldTest t (cropLt p (castSamples batch.1)) (cropLt p (castSamples batch.2)))) ∧
      (∀ (p x : ℝ) (l : List ℝ), x ∈ cropLt p l ↔ x ∈ l ∧ x < p) ∧
      (∀ (t : CtTest) (ls rs : List ℝ),
        foldTest t ls rs = rs.foldl update_test_right (ls.foldl update_test_left t)) ∧
      (∀ (t : CtTest) (x : ℝ),
        update_test_left t x =
          ⟨(t.means.1 + (x - t.means.1) / ((t.sizes.1 + 1 : ℕ) : ℝ), t.means.2),
           (t.sq_diffs.1 + (x - t.means.1) *
              (x - (t.means.1 + (x - t.means.1) / ((t.sizes.1 + 1 : ℕ) : ℝ))), t.sq_diffs.2),
           (t.sizes.1 + 1, t.sizes.2)⟩ ∧
        update_test_right t x =
          ⟨(t.means.1, t.means.2 + (x - t.means.2) / ((t.sizes.2 + 1 : ℕ) : ℝ)),
           (t.sq_diffs.1, t.sq_diffs.2 + (x - t.means.2) *
              (x - (t.means.2 + (x - t.means.2) / ((t.sizes.2 + 1 : ℕ) : ℝ)))),
           (t.sizes.1, t.sizes.2 + 1)⟩) := by
  obtain ⟨s, hupd, -⟩ := update_ct_stats_some c t0 rest hc batch
  refine ⟨s, _, hupd, ?_, ?_, mem_cropLt, fun t ls rs => rfl, fun t x => ⟨rfl, rfl⟩⟩
  · exact foldWindows_zero t0 rest c.percentiles _ _
  · intro i h1 h100 p t hp ht
    obtain ⟨i', rfl⟩ : ∃ i', i = i' + 1 := ⟨i - 1, by omega⟩
    have hi' : i' + 1 - 1 = i' := by omega
    rw [hi'] at hp ht
    exact foldWindows_succ t0 rest c.percentiles _ _ (by rw [hrest, hpl]) i' t p ht hp

/-- C3 witness. -/
theorem c3_fold_routing_witness :
    ∃ s c', update_ct_stats (some ⟨CtTest.zero :: List.replicate 100 CtTest.zero,
        List.replicate 100 0⟩) ([], []) = some (s, c') ∧
      c'.tests[0]? = some (foldTest CtTest.zero (castSamples []) (castSamples [])) ∧
      (∀ i, 1 ≤ i → i ≤ 100 → ∀ p t, (List.replicate 100 (0 : ℝ))[i - 1]? = some p →
        (List.replicate 100 CtTest.zero)[i - 1]? = some t →
        c'.tests[i]? =
          some (foldTest t (cropLt p (castSamples [])) (cropLt p (castSamples [])))) ∧
      (∀ (p x : ℝ) (l : List ℝ), x ∈ cropLt p l ↔ x ∈ l ∧ x < p) ∧
      (∀ (t : CtTest) (ls rs : List ℝ),
        foldTest t ls rs = rs.foldl update_test_right (ls.foldl update_test_left t)) ∧
      (∀ (t : CtTest) (x : ℝ),
        update_test_left t x =
          ⟨(t.means.1 + (x - t.means.1) / ((t.sizes.1 + 1 : ℕ) : ℝ), t.means.2),
           (t.sq_diffs.1 + (x - t.means.1) *
              (x - (t.means.1 + (x - t.means.1) / ((t.sizes.1 + 1 : ℕ) : ℝ))), t.sq_diffs.2),
           (t.sizes.1 + 1, t.sizes.2)⟩ ∧
        update_test_right t x =
          ⟨(t.means.1, t.means.2 + (x - t.means.2) / ((t.sizes.2 + 1 : ℕ) : ℝ)),
           (t.sq_diffs.1, t.sq_diffs.2 + (x - t.means.2) *
              (x - (t.means.2 + (x - t.means.2) / ((t.sizes.2 + 1 : ℕ) : ℝ)))),
           (t.sizes.1, t.sizes.2 + 1)⟩) :=
  c3_fold_routing ⟨CtTest.zero :: List.replicate 100 CtTest.zero, List.replicate 100 0⟩
    CtTest.zero (List.replicate 100 CtTest.zero) rfl (by simp) (by simp) ([], [])

/-- C5: a fold with an existing context returns the supplied cutpoint list
itself; cutpoints are never recomputed or altered by a fold. -/
theorem c5_cutpoints_frozen (c : CtCtx) (hc : c.tests ≠ []) (batch : List ℕ × List ℕ) :
    ∃ s tests', update_ct_stats (some c) batch = some (s, ⟨tests', c.percentiles⟩) := by
  obtain ⟨t0, rest, hcons⟩ : ∃ t0 rest, c.tests = t0 :: rest := by
    cases hx : c.tests with
    | nil => exact absurd hx hc
    | cons a l => exact ⟨a, l, rfl⟩
  obtain ⟨s, hupd, -⟩ := update_ct_stats_some c t0 rest hcons batch
  exact ⟨s, _, hupd⟩

/-- C5 witness. -/
theorem c5_cutpoints_frozen_witness :
    ∃ s tests', update_ct_stats (some ⟨[CtTest.zero], [3]⟩) ([], []) =
      some (s, ⟨tests', (⟨[CtTest.zero], [3]⟩ : CtCtx).percentiles⟩) :=
  c5_cutpoints_frozen ⟨[CtTest.zero], [3]⟩ (by simp) ([], [])

/-- C8: the percentile profiler fails exactly on the empty pool; on any
nonempty pool it returns 100 cutpoints, and on a single-sample pool every
cutpoint equals that sample. -/
theorem c8_profiler_error_behavior :
    prepare_percentiles [] = none ∧
    (∀ d : List ℕ, d ≠ [] → ∃ l, prepare_percentiles d = some l ∧ l.length = 100) ∧
    (∀ x : ℕ, prepare_percentiles [x] = some (List.replicate 100 (x : ℝ))) := by
  refine ⟨prepare_percentiles_nil, prepare_percentiles_length, fun x => ?_⟩
  have hs : sortedSamples [x] = [(x : ℝ)] := by
    rw [sortedSamples, List.mergeSort_eq_self (by simp)]
    rfl
  rw [prepare_percentiles]
  rw [collectSome_of_all_some (g := fun _ => (x : ℝ)) (List.range 100)
    (fun i _ => by rw [hs, percentile_of_sorted_single])]
  congr 1

/-- C8 witness. -/
theorem c8_profiler_error_behavior_witness :
    ∃ l, prepare_percentiles [7] = some l ∧ l.length = 100 :=
  c8_profiler_error_behavior.2.1 [7] (by simp)

/-- C10: a first call on a nonempty pooled batch, or any call on a
previously-returned context shape (101 windows, 100 cutpoints), returns a
context with exactly 101 windows and 100 cutpoints, and in particular succeeds:
the `unwrap` after `max_by` cannot fire. -/
theorem c10_context_shape :
    (∀ L R : List ℕ, L ++ R ≠ [] → ∃ s c', update_ct_stats none (L, R) = some (s, c') ∧
        c'.tests.length = 101 ∧ c'.percentiles.length = 100) ∧
    (∀ c : CtCtx, c.tests.length = 101 → c.percentiles.length = 100 →
      ∀ batch, ∃ s c', update_ct_stats (some c) batch = some (s, c') ∧
        c'.tests.length = 101 ∧ c'.percentiles.length = 100) := by
  have hsome : ∀ c : CtCtx, c.tests.length = 101 → c.percentiles.length = 100 →
      ∀ batch, ∃ s c', update_ct_stats (some c) batch = some (s, c') ∧
        c'.tests.length = 101 ∧ c'.percentiles.length = 100 := by
    intro c hct hcp batch
    obtain ⟨t0, rest, hcons⟩ : ∃ t0 rest, c.tests = t0 :: rest := by
      cases hx : c.tests with
      | nil => rw [hx] at hct; simp at hct
      | cons a l => exact ⟨a, l, rfl⟩
    have hrest : rest.length = 100 := by
      have := hct
      rw [hcons] at this
      simpa using this
    obtain ⟨s, hupd, -⟩ := update_ct_stats_some c t0 rest hcons batch
    refine ⟨s, _, hupd, ?_, hcp⟩
    rw [foldWindows_length _ _ _ _ _ (by rw [hrest, hcp]), hrest]
  refine ⟨?_, hsome⟩
  intro L R hLR
  obtain ⟨pcts, hp, hplen⟩ := prepare_percentiles_length (L ++ R) hLR
  obtain ⟨s, c', hupd, hlen⟩ := hsome ⟨List.replicate 101 CtTest.zero, pcts⟩ (by simp) hplen (L, R)
  refine ⟨s, c', ?_, hlen⟩
  rw [update_ct_stats_none L R pcts hp]
  exact hupd

/-- C10 witness. -/
theorem c10_context_shape_witness :
    (∃ s c', update_ct_stats none ([5], []) = some (s, c') ∧
      c'.tests.length = 101 ∧ c'.percentiles.length = 100) ∧
    (∃ s c', update_ct_stats (some ⟨List.replicate 101 CtTest.zero, List.replicate 100 0⟩)
        ([], []) = some (s, c') ∧ c'.tests.length = 101 ∧ c'.percentiles.length = 100) :=
  ⟨c10_context_shape.1 [5] [] (by simp),
    c10_context_shape.2 ⟨List.replicate 101 CtTest.zero, List.replicate 100 0⟩
      (by simp) (by simp) ([], [])⟩

/-- C2: the summarizer computes the Welch t-statistic of each window from the
accumulator (`t = (mean_l - mean_r) / sqrt(var_l/n_l + var_r/n_r)` with
`var = sq_dev / (n - 1)`), selects a window whose absolute t is maximal under
the NaN-smallest ordering (a NaN window is never selected while a non-NaN
window exists), and reports its signed t, its combined sample size, and
`max_tau = max_t / sqrt(combined size)`. -/
theorem c2_summarizer (tests : List CtTest) (h : tests ≠ []) :
    ∃ r, r ∈ tests ∧
      summarize tests = some ⟨compute_t r,
        div (compute_t r) (fsqrt (fin ((r.sizes.1 + r.sizes.2 : ℕ) : ℝ))),
        r.sizes.1 + r.sizes.2⟩ ∧
      (∀ y ∈ tests, (fabs (compute_t y)).isNan = true ∨
        ((fabs (compute_t r)).isNan = false ∧
          fle (fabs (compute_t y)) (fabs (compute_t r)))) ∧
      (∀ u : CtTest, compute_t u =
        div (fin (u.means.1 - u.means.2))
          (fsqrt (add
            (div (finDiv u.sq_diffs.1 ((u.sizes.1 : ℝ) - 1)) (fin (u.sizes.1 : ℝ)))
            (div (finDiv u.sq_diffs.2 ((u.sizes.2 : ℝ) - 1)) (fin (u.sizes.2 : ℝ)))))) := by
  obtain ⟨t, ts, rfl⟩ : ∃ t ts, tests = t :: ts := by
    cases hx : tests with
    | nil => exact absurd hx h
    | cons a l => exact ⟨a, l, rfl⟩
  obtain ⟨r, hmem, hgood, hsumm⟩ := summarize_cons t ts
  exact ⟨r, hmem, hsumm, fun y hy => hgood y hy, fun u => rfl⟩

/-- C2 witness. -/
theorem c2_summarizer_witness :
    ∃ r, r ∈ [CtTest.zero] ∧
      summarize [CtTest.zero] = some ⟨compute_t r,
        div (compute_t r) (fsqrt (fin ((r.sizes.1 + r.sizes.2 : ℕ) : ℝ))),
        r.sizes.1 + r.sizes.2⟩ ∧
      (∀ y ∈ [CtTest.zero], (fabs (compute_t y)).isNan = true ∨
        ((fabs (compute_t r)).isNan = false ∧
          fle (fabs (compute_t y)) (fabs (compute_t r)))) ∧
      (∀ u : CtTest, compute_t u =
        div (fin (u.means.1 - u.means.2))
          (fsqrt (add
            (div (finDiv u.sq_diffs.1 ((u.sizes.1 : ℝ) - 1)) (fin (u.sizes.1 : ℝ)))
            (div (finDiv u.sq_diffs.2 ((u.sizes.2 : ℝ) - 1)) (fin (u.sizes.2 : ℝ)))))) :=
  c2_summarizer [CtTest.zero] (by simp)

/-- C4: for a nonempty pool the profiler returns 100 cutpoints, and the
cutpoint of window `i` (1-based) is exactly the spec formula `specCutpoint`. -/
theorem c4_cutpoint_formula (d : List ℕ) (hd : d ≠ []) :
    ∃ l, prepare_percentiles d = some l ∧ l.length = 100 ∧
      ∀ i, 1 ≤ i → i ≤ 100 → l[i - 1]? = some (specCutpoint d i) := by
  refine ⟨_, prepare_percentiles_eq d hd, by simp, ?_⟩
  intro i h1 h100
  rw [List.getElem?_map, List.getElem?_range (by omega)]
  rw [Option.map_some']
  congr 1
  have hexp : pctTarget (i - 1) = 100 * (1 - (0.5 : ℝ) ^ ((10 * (i : ℝ)) / 100)) := by
    rw [pctTarget]
    congr 2
    rw [Nat.sub_add_cancel h1]
    push_cast
    ring
  rw [interpVal, specCutpoint, hexp]

/-- C4 witness. -/
theorem c4_cutpoint_formula_witness :
    ∃ l, prepare_percentiles [5] = some l ∧ l.length = 100 ∧
      ∀ i, 1 ≤ i → i ≤ 100 → l[i - 1]? = some (specCutpoint [5] i) :=
  c4_cutpoint_formula [5] (by simp)

/-- C6: crop monotonicity: for windows `1 ≤ i < j ≤ 100` the cutpoint of
window `i` is at most the cutpoint of window `j`, and every sample admitted
into window `i` is admitted into window `j`. -/
theorem c6_crop_monotonicity (d : List ℕ) (hd : d ≠ []) :
    ∃ l, prepare_percentiles d = some l ∧
      ∀ i j, 1 ≤ i → i < j → j ≤ 100 →
        ∀ ci cj, l[i - 1]? = some ci → l[j - 1]? = some cj →
          ci ≤ cj ∧ ∀ (x : ℝ) (xs : List ℝ), x ∈ cropLt ci xs → x ∈ cropLt cj xs := by
  refine ⟨_, prepare_percentiles_eq d hd, ?_⟩
  intro i j h1 hij hj ci cj hci hcj
  rw [List.getElem?_map, List.getElem?_range (by omega), Option.map_some'] at hci
  rw [List.getElem?_map, List.getElem?_range (by omega), Option.map_some'] at hcj
  obtain rfl : ci = interpVal (sortedSamples d) (pctTarget (i - 1)) := by
    exact (Option.some_injective _ hci).symm
  obtain rfl : cj = interpVal (sortedSamples d) (pctTarget (j - 1)) := by
    exact (Option.some_injective _ hcj).symm
  have hmono : interpVal (sortedSamples d) (pctTarget (i - 1)) ≤
      interpVal (sortedSamples d) (pctTarget (j - 1)) :=
    interpVal_mono (sortedSamples_sorted d) (pctTarget_nonneg (i - 1))
      (pctTarget_mono (by omega)) (pctTarget_lt_100 (j - 1))
  refine ⟨hmono, fun x xs hx => ?_⟩
  rw [mem_cropLt] at hx ⊢
  exact ⟨hx.1, lt_of_lt_of_le hx.2 hmono⟩

/-- C6 witness. -/
theorem c6_crop_monotonicity_witness :
    ∃ l, prepare_percentiles [5] = some l ∧
      ∀ i j, 1 ≤ i → i < j → j ≤ 100 →
        ∀ ci cj, l[i - 1]? = some ci → l[j - 1]? = some cj →
          ci ≤ cj ∧ ∀ (x : ℝ) (xs : List ℝ), x ∈ cropLt ci xs → x ∈ cropLt cj xs :=
  c6_crop_monotonicity [5] (by simp)

/-! ### Class-swap symmetry -/

theorem update_test_left_swap (t : CtTest) (x : ℝ) :
    update_test_left (swapTest t) x = swapTest (update_test_right t x) := rfl

theorem update_test_right_swap (t : CtTest) (x : ℝ) :
    update_test_right (swapTest t) x = swapTest (update_test_left t x) := rfl

theorem foldl_update_left_swap (ls : List ℝ) :
    ∀ t : CtTest, ls.foldl update_test_left (swapTest t) =
      swapTest (ls.foldl update_test_right t) := by
  induction ls with
  | nil => intro t; rfl
  | cons x xs ih =>
    intro t
    rw [List.foldl_cons, List.foldl_cons, update_test_left_swap, ih]

theorem foldl_update_right_swap (rs : List ℝ) :
    ∀ t : CtTest, rs.foldl update_test_right (swapTest t) =
      swapTest (rs.foldl update_test_left t) := by
  induction rs with
  | nil => intro t; rfl
  | cons x xs ih =>
    intro t
    rw [List.foldl_cons, List.foldl_cons, update_test_right_swap, ih]

theorem foldl_update_comm (t : CtTest) (ls rs : List ℝ) :
    ls.foldl update_test_left (rs.foldl update_test_right t) =
      rs.foldl update_test_right (ls.foldl update_test_left t) := by
  refine CtTest.ext_acc ?_ ?_
  · rw [foldl_update_left_leftAcc, foldl_update_right_leftAcc, foldl_update_right_leftAcc,
      foldl_update_left_leftAcc]
  · rw [foldl_update_left_rightAcc, foldl_update_right_rightAcc, foldl_update_right_rightAcc,
      foldl_update_left_rightAcc]

/-- Folding a batch pair into a swapped accumulator with the classes exchanged
is the swap of the original fold. -/
theorem foldTest_swap (t : CtTest) (ls rs : List ℝ) :
    foldTest (swapTest t) rs ls = swapTest (foldTest t ls rs) := by
  rw [foldTest, foldTest, foldl_update_left_swap, foldl_update_right_swap, foldl_update_comm]

theorem add_comm_F (x y : F) : add x y = add y x := by
  cases x <;> cases y <;>
    first
      | rfl
      | (show F.fin _ = F.fin _
         congr 1
         ring)

theorem neg_div_F (x d : F) : div (F.neg x) d = F.neg (div x d) := by
  cases x with
  | nan => cases d <;> rfl
  | inf =>
    cases d with
    | nan => rfl
    | inf => rfl
    | ninf => rfl
    | fin b =>
      show (if 0 ≤ b then ninf else inf) = F.neg (if 0 ≤ b then inf else ninf)
      split <;> rfl
  | ninf =>
    cases d with
    | nan => rfl
    | inf => rfl
    | ninf => rfl
    | fin b =>
      show (if 0 ≤ b then inf else ninf) = F.neg (if 0 ≤ b then ninf else inf)
      split <;> rfl
  | fin a =>
    cases d with
    | nan => rfl
    | inf =>
      show F.fin 0 = F.fin (-0)
      rw [neg_zero]
    | ninf =>
      show F.fin 0 = F.fin (-0)
      rw [neg_zero]
    | fin b =>
      show finDiv (-a) b = F.neg (finDiv a b)
      rw [finDiv, finDiv]
      rcases eq_or_ne b 0 with rfl | hb
      · have hne : ¬(0 : ℝ) ≠ 0 := fun h => h rfl
        rcases lt_trichotomy a 0 with ha | rfl | ha
        · rw [if_neg hne, if_neg hne]
          rw [if_neg (show ¬(-a = 0) from fun h => absurd (neg_eq_zero.mp h) (ne_of_lt ha))]
          rw [if_pos (show 0 < -a from by linarith)]
          rw [if_neg (show ¬(a = 0) from ne_of_lt ha)]
          rw [if_neg (show ¬(0 < a) from by linarith)]
          rfl
        · rw [if_neg hne, if_neg hne, neg_zero, if_pos rfl]
          rfl
        · rw [if_neg hne, if_neg hne]
          rw [if_neg (show ¬(-a = 0) from fun h => absurd (neg_eq_zero.mp h) (ne_of_gt ha))]
          rw [if_neg (show ¬(0 < -a) from by linarith)]
          rw [if_neg (show ¬(a = 0) from ne_of_gt ha)]
          rw [if_pos ha]
          rfl
      · rw [if_pos hb, if_pos hb, neg_div]
        rfl

theorem compute_t_swap (t : CtTest) : compute_t (swapTest t) = F.neg (compute_t t) := by
  rw [compute_t, compute_t]
  show div (fin (t.means.2 - t.means.1)) _ = F.neg (div (fin (t.means.1 - t.means.2)) _)
  rw [show t.means.2 - t.means.1 = -(t.means.1 - t.means.2) by ring]
  rw [show (F.fin (-(t.means.1 - t.means.2))) = F.neg (F.fin (t.means.1 - t.means.2)) from rfl]
  rw [neg_div_F]
  exact congrArg (fun d => F.neg (F.div (F.fin (t.means.1 - t.means.2)) d))
    (congrArg F.fsqrt (add_comm_F _ _))

theorem fabs_neg_F (x : F) : fabs (F.neg x) = fabs x := by
  cases x with
  | nan => rfl
  | inf => rfl
  | ninf => rfl
  | fin a =>
    show F.fin |(-a)| = F.fin |a|
    rw [abs_neg]

theorem tKey_swap (t : CtTest) : tKey (swapTest t) = tKey t := by
  rw [tKey, tKey, compute_t_swap, fabs_neg_F]

theorem maxStep_swap (t y : CtTest) : maxStep (swapTest t) (swapTest y) = swapTest (maxStep t y) := by
  rw [maxStep, maxStep, tKey_swap, tKey_swap]
  split <;> rfl

theorem foldl_maxStep_swap (ts : List CtTest) :
    ∀ t : CtTest, (ts.map swapTest).foldl maxStep (swapTest t) = swapTest (ts.foldl maxStep t) := by
  induction ts with
  | nil => intro t; rfl
  | cons y ys ih =>
    intro t
    rw [List.map_cons, List.foldl_cons, List.foldl_cons, maxStep_swap, ih]

theorem max_by_t_swap (tests : List CtTest) :
    max_by_t (tests.map swapTest) = (max_by_t tests).map swapTest := by
  cases tests with
  | nil => rfl
  | cons t ts =>
    rw [List.map_cons, max_by_t, max_by_t, foldl_maxStep_swap]
    rfl

theorem summarize_swap (tests : List CtTest) :
    summarize (tests.map swapTest) = (summarize tests).map swapSummary := by
  rw [summarize, summarize, max_by_t_swap]
  cases max_by_t tests with
  | none => rfl
  | some r =>
    show some _ = some _
    have hsz : (swapTest r).sizes.1 + (swapTest r).sizes.2 = r.sizes.1 + r.sizes.2 :=
      Nat.add_comm _ _
    rw [swapSummary]
    simp only [Option.map_some']
    congr 1
    rw [compute_t_swap]
    show CtSummary.mk _ _ _ = CtSummary.mk _ _ _
    congr 1
    · rw [hsz, neg_div_F]

theorem zipWith_fold_swap (rs ls : List ℝ) (rest : List CtTest) :
    ∀ pcts : List ℝ,
      List.zipWith (fun t pct => foldTest t (cropLt pct rs) (cropLt pct ls))
          (rest.map swapTest) pcts =
        (List.zipWith (fun t pct => foldTest t (cropLt pct ls) (cropLt pct rs))
          rest pcts).map swapTest := by
  induction rest with
  | nil => intro pcts; rfl
  | cons t rest' ih =>
    intro pcts
    cases pcts with
    | nil => rfl
    | cons p ps =>
      rw [List.map_cons, List.zipWith_cons_cons, List.zipWith_cons_cons, List.map_cons,
        foldTest_swap, ih]

theorem foldWindows_swap (t0 : CtTest) (rest : List CtTest) (pcts ls rs : List ℝ) :
    foldWindows (swapTest t0) (rest.map swapTest) pcts rs ls =
      (foldWindows t0 rest pcts ls rs).map swapTest := by
  rw [foldWindows, foldWindows, List.map_cons]
  congr 1
  · exact foldTest_swap t0 ls rs
  · rw [List.map_append, zipWith_fold_swap, List.map_drop]

theorem prepare_percentiles_comm (L R : List ℕ) :
    prepare_percentiles (R ++ L) = prepare_percentiles (L ++ R) := by
  rw [prepare_percentiles, prepare_percentiles, sortedSamples_comm R L]

theorem update_ct_stats_swap (c : CtCtx) (batch : List ℕ × List ℕ) :
    update_ct_stats (some (swapCtx c)) (batch.2, batch.1) =
      (update_ct_stats (some c) batch).map (fun r => (swapSummary r.1, swapCtx r.2)) := by
  cases hx : c.tests with
  | nil =>
    rw [update_ct_stats, update_ct_stats]
    simp [swapCtx, hx]
  | cons t0 rest =>
    obtain ⟨s, hupd, hsum⟩ := update_ct_stats_some c t0 rest hx batch
    have hsw : (swapCtx c).tests = swapTest t0 :: rest.map swapTest := by
      rw [swapCtx, hx, List.map_cons]
    obtain ⟨s', hupd', hsum'⟩ :=
      update_ct_stats_some (swapCtx c) (swapTest t0) (rest.map swapTest) hsw (batch.2, batch.1)
    have hfw : foldWindows (swapTest t0) (rest.map swapTest) (swapCtx c).percentiles
        (castSamples (batch.2, batch.1).1) (castSamples (batch.2, batch.1).2) =
        (foldWindows t0 rest c.percentiles (castSamples batch.1)
          (castSamples batch.2)).map swapTest :=
      foldWindows_swap t0 rest c.percentiles (castSamples batch.1) (castSamples batch.2)
    rw [hfw, summarize_swap, hsum, Option.map_some'] at hsum'
    have hs' : s' = swapSummary s := (Option.some_injective _ hsum').symm
    rw [hupd', hupd, Option.map_some', hs', hfw]
    rfl

theorem update_ct_stats_none_swap (L R : List ℕ) :
    update_ct_stats none (R, L) =
      (update_ct_stats none (L, R)).map (fun r => (swapSummary r.1, swapCtx r.2)) := by
  rcases hp : prepare_percentiles (L ++ R) with _ | pcts
  · have hp' : prepare_percentiles (R ++ L) = none := by
      rw [prepare_percentiles_comm]
      exact hp
    rw [update_ct_stats, update_ct_stats]
    simp [hp, hp']
  · have hp' : prepare_percentiles (R ++ L) = some pcts := by
      rw [prepare_percentiles_comm]
      exact hp
    have hswap : swapCtx ⟨List.replicate 101 CtTest.zero, pcts⟩ =
        ⟨List.replicate 101 CtTest.zero, pcts⟩ := by
      rw [swapCtx, List.map_replicate]
      rfl
    rw [update_ct_stats_none R L pcts hp', update_ct_stats_none L R pcts hp, ← hswap]
    exact update_ct_stats_swap ⟨List.replicate 101 CtTest.zero, pcts⟩ (L, R)

theorem runSession_swap (bs : List (List ℕ × List ℕ)) :
    ∀ octx : Option CtCtx,
      runSession (swapBatches bs) (octx.map swapCtx) =
        (runSession bs octx).map (fun r => (swapSummary r.1, swapCtx r.2)) := by
  induction bs with
  | nil => intro octx; rfl
  | cons b bs ih =>
    intro octx
    have hupd : update_ct_stats (octx.map swapCtx) (b.2, b.1) =
        (update_ct_stats octx b).map (fun r => (swapSummary r.1, swapCtx r.2)) := by
      cases octx with
      | none => exact update_ct_stats_none_swap b.1 b.2
      | some c => exact update_ct_stats_swap c b
    cases bs with
    | nil =>
      show runSession [(b.2, b.1)] (octx.map swapCtx) = _
      rw [runSession, runSession]
      exact hupd
    | cons b2 bs2 =>
      show runSession ((b.2, b.1) :: (b2.2, b2.1) :: swapBatches bs2) (octx.map swapCtx) = _
      rw [runSession, runSession, hupd]
      cases hu : update_ct_stats octx b with
      | none => rfl
      | some r =>
        obtain ⟨s, c⟩ := r
        show runSession ((b2.2, b2.1) :: swapBatches bs2) (some (swapCtx c)) = _
        have hih := ih (some c)
        rw [show (some c).map swapCtx = some (swapCtx c) from rfl] at hih
        rw [show swapBatches (b2 :: bs2) = (b2.2, b2.1) :: swapBatches bs2 from rfl] at hih
        exact hih

/-- C7: relabelling the classes (swapping the left and right sample vectors in
every batch of a session) negates the reported `max_t` and `max_tau` and keeps
the combined sample size; since negation preserves `fabs`, the magnitudes of
`max_t` and `max_tau` are unchanged. -/
theorem c7_class_swap_symmetry (bs : List (List ℕ × List ℕ)) :
    runSession (swapBatches bs) none =
      (runSession bs none).map (fun r =>
        (⟨F.neg r.1.max_t, F.neg r.1.max_tau, r.1.sample_size⟩, swapCtx r.2)) ∧
    (∀ x : F, fabs (F.neg x) = fabs x) := by
  constructor
  · exact runSession_swap bs none
  · exact fabs_neg_F

/-- C9 counterexample: the export zips the two sample vectors, so with unequal
class batch lengths a folded sample gets no record: for the batch
`([1, 2], [3])` the left sample `2` is part of the batch that is folded, but no
emitted record carries runtime `2`. -/
theorem c9_export_counterexample :
    csvRecords "b" ([1, 2], [3]) = [("b", 0, 1), ("b", 0, 3)] ∧
    (2 : ℕ) ∈ (([1, 2], [3]) : List ℕ × List ℕ).1 ∧
    ∀ r ∈ csvRecords "b" ([1, 2], [3]), r.2.2 ≠ 2 := by
  decide

/-- C9 amended: records are emitted pairwise over the zip of the two sample
vectors: every record carries class index 0, exactly `2 * min |L| |R|` records
are emitted, and for each index below `min |L| |R|` both class samples at that
index are emitted (samples beyond the shorter class vector are dropped). -/
theorem c9_export_zip (name : String) (L R : List ℕ) :
    (∀ r ∈ csvRecords name (L, R), r.1 = name ∧ r.2.1 = 0) ∧
    (csvRecords name (L, R)).length = 2 * min L.length R.length ∧
    (∀ i, i < min L.length R.length → ∀ x y, L[i]? = some x → R[i]? = some y →
      (name, 0, x) ∈ csvRecords name (L, R) ∧ (name, 0, y) ∈ csvRecords name (L, R)) := by
  refine ⟨?_, ?_, ?_⟩
  · intro r hr
    rw [csvRecords] at hr
    obtain ⟨xy, _, hr⟩ := List.mem_flatMap.mp hr
    rcases List.mem_pair.mp hr with rfl | rfl <;> exact ⟨rfl, rfl⟩
  · have hlen : ∀ l : List (ℕ × ℕ),
        (l.flatMap (fun xy => [(name, 0, xy.1), (name, 0, xy.2)])).length = 2 * l.length := by
      intro l
      induction l with
      | nil => rfl
      | cons xy l ih =>
        rw [List.flatMap_cons, List.length_append, ih, List.length_cons]
        simp
        omega
    rw [csvRecords, hlen, List.length_zip]
  · intro i hi x y hx hy
    have hzip : (L.zip R)[i]? = some (x, y) := by
      rw [List.getElem?_zip_eq_some]
      exact ⟨hx, hy⟩
    have hmem : (x, y) ∈ L.zip R := List.getElem?_mem hzip
    constructor
    · rw [csvRecords]
      exact List.mem_flatMap.mpr ⟨(x, y), hmem, by simp⟩
    · rw [csvRecords]
      exact List.mem_flatMap.mpr ⟨(x, y), hmem, by simp⟩

/-- C9 amended witness. -/
theorem c9_export_zip_witness :
    ("b", 0, 1) ∈ csvRecords "b" ([1], [2]) ∧ ("b", 0, 2) ∈ csvRecords "b" ([1], [2]) :=
  (c9_export_zip "b" [1] [2]).2.2 0 (by decide) 1 2 rfl rfl

end Dudect
